import Mathlib

/-!
Shallow embedding of `src/main/Hrxn_methods.py` (heat-of-reaction evaluators
for the autoCBH project) and verification of its specification.

A Python `dict` of float energies is modelled as a partial map
`String → Option ℝ`; a dictionary access `delE[k]` that may raise `KeyError(k)`
becomes `Except String ℝ` whose error value carries the missing key.  Python
floats are modelled by real numbers under exact arithmetic (the specification's
formulas, e.g. `4^3.7`, are exact real expressions).
-/

namespace AutoCBH

/-- An energy table: a Python dict mapping string keys to float values. -/
def Table : Type := String → Option ℝ

/-- `k in delE.keys()`. -/
def hasKey (t : Table) (k : String) : Bool := (t k).isSome

/-- Dict access `delE[k]`: raises `KeyError(k)` when the key is absent. -/
def getE (t : Table) (k : String) : Except String ℝ :=
  match t k with
  | some v => Except.ok v
  | none => Except.error k

/-- Removing a set of keys from a dict (used to state "the table without
a correction group"). -/
def eraseKeys (t : Table) (ks : List String) : Table :=
  fun k => if k ∈ ks then none else t k

/- Constants of `anl0_hrxn`, verbatim from the source. -/

/-- `hartree_to_kJpermole = 2625.499748`. -/
def hartree_to_kJpermole : ℝ := 2625.499748

/-- `cbs_tz_qz = 3.0**3.7 / (4.0**3.7 - 3.0**3.7)`. -/
noncomputable def cbs_tz_qz : ℝ :=
  (3 : ℝ) ^ (3.7 : ℝ) / ((4 : ℝ) ^ (3.7 : ℝ) - (3 : ℝ) ^ (3.7 : ℝ))

/-- `cbs_tz_qz_low = - cbs_tz_qz`. -/
noncomputable def cbs_tz_qz_low : ℝ := - cbs_tz_qz

/-- `cbs_tz_qz_high = 1.0 + cbs_tz_qz`. -/
noncomputable def cbs_tz_qz_high : ℝ := 1.0 + cbs_tz_qz

/-- `cbs_qz_5z = 4.0**3.7 / (5.0**3.7 - 4.0**3.7)`. -/
noncomputable def cbs_qz_5z : ℝ :=
  (4 : ℝ) ^ (3.7 : ℝ) / ((5 : ℝ) ^ (3.7 : ℝ) - (4 : ℝ) ^ (3.7 : ℝ))

/-- `cbs_qz_5z_low = - cbs_qz_5z`. -/
noncomputable def cbs_qz_5z_low : ℝ := - cbs_qz_5z

/-- `cbs_qz_5z_high = 1.0 + cbs_qz_5z`. -/
noncomputable def cbs_qz_5z_high : ℝ := 1.0 + cbs_qz_5z

open Classical in
/-- The core-valence correction block of `anl0_hrxn`.

Python source:
`if 'core_0_tz' and 'core_X_tz' and 'core_0_qz' and 'core_X_qz' in keys:` —
the string literals are truthy, so the condition evaluates to
`'core_X_qz' in keys` alone.  When it holds, all four keys are accessed
(a `KeyError` escapes if one is absent) and the correction is added when its
kJ/mol magnitude is below 4.0. -/
noncomputable def coreStep (delE : Table) (Hrxn : ℝ) : Except String ℝ :=
  if hasKey delE "core_X_qz" then do
    let core := cbs_tz_qz_low * ((← getE delE "core_0_tz") - (← getE delE "core_X_tz"))
      + cbs_tz_qz_high * ((← getE delE "core_0_qz") - (← getE delE "core_X_qz"))
    if |core * hartree_to_kJpermole| < 4.0 then
      pure (Hrxn + core * hartree_to_kJpermole)
    else
      pure Hrxn
  else
    pure Hrxn

open Classical in
/-- The coupled-cluster block: `if 'ccQ' and 'ccT' in keys:` evaluates to
`'ccT' in keys` alone (Python truthiness). -/
noncomputable def ccStep (delE : Table) (Hrxn : ℝ) : Except String ℝ :=
  if hasKey delE "ccT" then do
    let ccTQ := (← getE delE "ccQ") - (← getE delE "ccT")
    if |ccTQ * hartree_to_kJpermole| < 4.0 then
      pure (Hrxn + ccTQ * hartree_to_kJpermole)
    else
      pure Hrxn
  else
    pure Hrxn

open Classical in
/-- The relativistic block: `if 'ci_DK' and 'ci_NREL' in keys:` evaluates to
`'ci_NREL' in keys` alone (Python truthiness). -/
noncomputable def ciStep (delE : Table) (Hrxn : ℝ) : Except String ℝ :=
  if hasKey delE "ci_NREL" then do
    let ci := (← getE delE "ci_DK") - (← getE delE "ci_NREL")
    if |ci * hartree_to_kJpermole| < 4.0 then
      pure (Hrxn + ci * hartree_to_kJpermole)
    else
      pure Hrxn
  else
    pure Hrxn

open Classical in
/-- The anharmonicity block: `if 'zpe_anharm' and 'zpe_harm' in keys:`
evaluates to `'zpe_harm' in keys` alone (Python truthiness); the correction
is already in kJ/mol and is added without the unit conversion. -/
noncomputable def anharmStep (delE : Table) (Hrxn : ℝ) : Except String ℝ :=
  if hasKey delE "zpe_harm" then do
    let anharm := (← getE delE "zpe_anharm") - (← getE delE "zpe_harm")
    if |anharm| < 4.0 then
      pure (Hrxn + anharm)
    else
      pure Hrxn
  else
    pure Hrxn

/-- The four correction blocks applied in source order. -/
noncomputable def corrChain (delE : Table) (Hrxn : ℝ) : Except String ℝ :=
  coreStep delE Hrxn >>= ccStep delE >>= ciStep delE >>= anharmStep delE

/-- `anl0_hrxn(delE, *args)`: the ANL0 heat of reaction.  The `*args` are
ignored by the source and are omitted here. -/
noncomputable def anl0_hrxn (delE : Table) : Except String ℝ := do
  let avqz ← getE delE "avqz"
  let av5z ← getE delE "av5z"
  let zpe ← getE delE "zpe"
  let cbs := cbs_qz_5z_low * avqz + cbs_qz_5z_high * av5z
  let Hrxn := (cbs + zpe) * hartree_to_kJpermole
  corrChain delE Hrxn

/-- The list comprehension `[delE[k] for k in args]`: looks keys up
left-to-right, raising `KeyError` at the first absent key. -/
def lookupAll (t : Table) : List String → Except String (List ℝ)
  | [] => Except.ok []
  | k :: ks => do
    let v ← getE t k
    let vs ← lookupAll t ks
    pure (v :: vs)

/-- `sum_Hrxn(delE, *args)`: `sum([delE[k] for k in args]) * hartree_to_kJpermole`. -/
noncomputable def sum_Hrxn (delE : Table) (args : List String) : Except String ℝ :=
  (lookupAll delE args).map (fun vals => vals.sum * hartree_to_kJpermole)

/- Correction groups, their key sets, and the key that actually gates each
block (the last literal of the Python condition). -/

/-- The four optional correction groups of the ANL0 method. -/
inductive CorrGroup : Type
  | core : CorrGroup
  | cc : CorrGroup
  | ci : CorrGroup
  | anharm : CorrGroup

/-- The required key set of each correction group. -/
def groupKeys : CorrGroup → List String
  | CorrGroup.core => ["core_0_tz", "core_X_tz", "core_0_qz", "core_X_qz"]
  | CorrGroup.cc => ["ccQ", "ccT"]
  | CorrGroup.ci => ["ci_DK", "ci_NREL"]
  | CorrGroup.anharm => ["zpe_anharm", "zpe_harm"]

/-- The key whose presence alone decides whether the group's block runs:
the last string literal of each Python `if` condition. -/
def gateKey : CorrGroup → String
  | CorrGroup.core => "core_X_qz"
  | CorrGroup.cc => "ccT"
  | CorrGroup.ci => "ci_NREL"
  | CorrGroup.anharm => "zpe_harm"

/-- The correction block of a given group. -/
noncomputable def stepOf : CorrGroup → Table → ℝ → Except String ℝ
  | CorrGroup.core => coreStep
  | CorrGroup.cc => ccStep
  | CorrGroup.ci => ciStep
  | CorrGroup.anharm => anharmStep

/-- A group's correction expressed in kJ/mol (absent keys defaulting to 0):
the quantity the 4.0 kJ/mol threshold is compared against, and the amount
added to `Hrxn` when below the threshold. -/
noncomputable def corrKJ : CorrGroup → Table → ℝ
  | CorrGroup.core, t =>
      (cbs_tz_qz_low * (((t "core_0_tz").getD 0) - ((t "core_X_tz").getD 0))
        + cbs_tz_qz_high * (((t "core_0_qz").getD 0) - ((t "core_X_qz").getD 0)))
      * hartree_to_kJpermole
  | CorrGroup.cc, t => (((t "ccQ").getD 0) - ((t "ccT").getD 0)) * hartree_to_kJpermole
  | CorrGroup.ci, t => (((t "ci_DK").getD 0) - ((t "ci_NREL").getD 0)) * hartree_to_kJpermole
  | CorrGroup.anharm, t => ((t "zpe_anharm").getD 0) - ((t "zpe_harm").getD 0)

/-- The three keys `anl0_hrxn` unconditionally accesses. -/
def requiredKeys : List String := ["avqz", "av5z", "zpe"]

/- Spec-side constants, written exactly as the specification states them. -/

/-- Spec: `w_low = -(4^3.7/(5^3.7-4^3.7))`. -/
noncomputable def w_low : ℝ :=
  -((4 : ℝ) ^ (3.7 : ℝ) / ((5 : ℝ) ^ (3.7 : ℝ) - (4 : ℝ) ^ (3.7 : ℝ)))

/-- Spec: `w_high = 1 - w_low`. -/
noncomputable def w_high : ℝ := 1 - w_low

/-- Spec: `w_low_tz = -(3^3.7/(4^3.7-3^3.7))`. -/
noncomputable def w_low_tz : ℝ :=
  -((3 : ℝ) ^ (3.7 : ℝ) / ((4 : ℝ) ^ (3.7 : ℝ) - (3 : ℝ) ^ (3.7 : ℝ)))

/-- Spec: `w_high_tz = 1 - w_low_tz`. -/
noncomputable def w_high_tz : ℝ := 1 - w_low_tz

/-- Spec: `K = 2625.499748`, the Hartree → kJ/mol conversion. -/
def K : ℝ := 2625.499748

/- Basic facts about the `Except` monad and dictionary lookup. -/

theorem ok_bind {α β : Type} (a : α) (f : α → Except String β) :
    (Except.ok a >>= f) = f a := rfl

theorem error_bind {α β : Type} (e : String) (f : α → Except String β) :
    ((Except.error e : Except String α) >>= f) = Except.error e := rfl

theorem map_ok {α β : Type} (f : α → β) (a : α) :
    (Except.ok a : Except String α).map f = Except.ok (f a) := rfl

theorem map_error {α β : Type} (f : α → β) (e : String) :
    (Except.error e : Except String α).map f = Except.error e := rfl

theorem pure_eq_ok {α : Type} (a : α) : (pure a : Except String α) = Except.ok a := rfl

theorem getE_some {t : Table} {k : String} {v : ℝ} (h : t k = some v) :
    getE t k = Except.ok v := by
  simp [getE, h]

theorem getE_none {t : Table} {k : String} (h : t k = none) :
    getE t k = Except.error k := by
  simp [getE, h]

theorem hasKey_true {t : Table} {k : String} {v : ℝ} (h : t k = some v) :
    hasKey t k = true := by
  simp [hasKey, h]

theorem hasKey_false {t : Table} {k : String} (h : t k = none) :
    hasKey t k = false := by
  simp [hasKey, h]

theorem eraseKeys_mem {t : Table} {ks : List String} {k : String} (h : k ∈ ks) :
    eraseKeys t ks k = none := by
  simp [eraseKeys, h]

theorem eraseKeys_not_mem {t : Table} {ks : List String} {k : String} (h : k ∉ ks) :
    eraseKeys t ks k = t k := by
  simp [eraseKeys, h]

/- Behaviour of a correction block, in the four regimes: its gate key absent
(block skipped), all group keys present (correction thresholded), gate key
present but a group key missing (lookup error), and on a table agreeing on
the group's keys (frame). -/

theorem stepOf_skip (g : CorrGroup) (t : Table) (x : ℝ) (h : t (gateKey g) = none) :
    stepOf g t x = Except.ok x := by
  cases g <;>
    simp only [stepOf, coreStep, ccStep, ciStep, anharmStep, gateKey] at h ⊢ <;>
    rw [if_neg (by simp [hasKey_false h])] <;> rfl

theorem stepOf_app (g : CorrGroup) (t : Table) (x : ℝ)
    (h : ∀ k ∈ groupKeys g, (t k).isSome = true) :
    stepOf g t x = Except.ok (if |corrKJ g t| < 4.0 then x + corrKJ g t else x) := by
  cases g
  case core =>
    obtain ⟨v1, h1⟩ := Option.isSome_iff_exists.mp (h "core_0_tz" (by simp [groupKeys]))
    obtain ⟨v2, h2⟩ := Option.isSome_iff_exists.mp (h "core_X_tz" (by simp [groupKeys]))
    obtain ⟨v3, h3⟩ := Option.isSome_iff_exists.mp (h "core_0_qz" (by simp [groupKeys]))
    obtain ⟨v4, h4⟩ := Option.isSome_iff_exists.mp (h "core_X_qz" (by simp [groupKeys]))
    simp [stepOf, coreStep, corrKJ, hasKey_true h4, getE_some h1, getE_some h2,
      getE_some h3, getE_some h4, h1, h2, h3, h4, ok_bind]
    split_ifs <;> rfl
  case cc =>
    obtain ⟨v1, h1⟩ := Option.isSome_iff_exists.mp (h "ccQ" (by simp [groupKeys]))
    obtain ⟨v2, h2⟩ := Option.isSome_iff_exists.mp (h "ccT" (by simp [groupKeys]))
    simp [stepOf, ccStep, corrKJ, hasKey_true h2, getE_some h1, getE_some h2,
      h1, h2, ok_bind]
    split_ifs <;> rfl
  case ci =>
    obtain ⟨v1, h1⟩ := Option.isSome_iff_exists.mp (h "ci_DK" (by simp [groupKeys]))
    obtain ⟨v2, h2⟩ := Option.isSome_iff_exists.mp (h "ci_NREL" (by simp [groupKeys]))
    simp [stepOf, ciStep, corrKJ, hasKey_true h2, getE_some h1, getE_some h2,
      h1, h2, ok_bind]
    split_ifs <;> rfl
  case anharm =>
    obtain ⟨v1, h1⟩ := Option.isSome_iff_exists.mp (h "zpe_anharm" (by simp [groupKeys]))
    obtain ⟨v2, h2⟩ := Option.isSome_iff_exists.mp (h "zpe_harm" (by simp [groupKeys]))
    simp [stepOf, anharmStep, corrKJ, hasKey_true h2, getE_some h1, getE_some h2,
      h1, h2, ok_bind]
    split_ifs <;> rfl

theorem stepOf_err (g : CorrGroup) (t : Table) (x : ℝ)
    (hg : (t (gateKey g)).isSome = true)
    (hmiss : ∃ k ∈ groupKeys g, t k = none) :
    ∃ e, stepOf g t x = Except.error e ∧ t e = none := by
  cases g
  case core =>
    simp only [gateKey] at hg
    obtain ⟨vg, hvg⟩ := Option.isSome_iff_exists.mp hg
    cases h1 : t "core_0_tz"
    case none =>
      exact ⟨"core_0_tz", by
        simp [stepOf, coreStep, hasKey_true hvg, getE_none h1, error_bind], h1⟩
    case some v1 =>
      cases h2 : t "core_X_tz"
      case none =>
        exact ⟨"core_X_tz", by
          simp [stepOf, coreStep, hasKey_true hvg, getE_some h1, getE_none h2,
            ok_bind, error_bind], h2⟩
      case some v2 =>
        cases h3 : t "core_0_qz"
        case none =>
          exact ⟨"core_0_qz", by
            simp [stepOf, coreStep, hasKey_true hvg, getE_some h1, getE_some h2,
              getE_none h3, ok_bind, error_bind], h3⟩
        case some v3 =>
          obtain ⟨k, hk, hknone⟩ := hmiss
          simp only [groupKeys, List.mem_cons, List.mem_singleton] at hk
          rcases hk with rfl | rfl | rfl | rfl | hk
          · rw [h1] at hknone; cases hknone
          · rw [h2] at hknone; cases hknone
          · rw [h3] at hknone; cases hknone
          · rw [hvg] at hknone; cases hknone
          · cases hk
  case cc =>
    simp only [gateKey] at hg
    obtain ⟨vg, hvg⟩ := Option.isSome_iff_exists.mp hg
    obtain ⟨k, hk, hknone⟩ := hmiss
    simp only [groupKeys, List.mem_cons, List.mem_singleton] at hk
    rcases hk with rfl | rfl | hk
    · exact ⟨"ccQ", by
        simp [stepOf, ccStep, hasKey_true hvg, getE_none hknone, error_bind], hknone⟩
    · rw [hvg] at hknone; cases hknone
    · cases hk
  case ci =>
    simp only [gateKey] at hg
    obtain ⟨vg, hvg⟩ := Option.isSome_iff_exists.mp hg
    obtain ⟨k, hk, hknone⟩ := hmiss
    simp only [groupKeys, List.mem_cons, List.mem_singleton] at hk
    rcases hk with rfl | rfl | hk
    · exact ⟨"ci_DK", by
        simp [stepOf, ciStep, hasKey_true hvg, getE_none hknone, error_bind], hknone⟩
    · rw [hvg] at hknone; cases hknone
    · cases hk
  case anharm =>
    simp only [gateKey] at hg
    obtain ⟨vg, hvg⟩ := Option.isSome_iff_exists.mp hg
    obtain ⟨k, hk, hknone⟩ := hmiss
    simp only [groupKeys, List.mem_cons, List.mem_singleton] at hk
    rcases hk with rfl | rfl | hk
    · exact ⟨"zpe_anharm", by
        simp [stepOf, anharmStep, hasKey_true hvg, getE_none hknone, error_bind], hknone⟩
    · rw [hvg] at hknone; cases hknone
    · cases hk

theorem stepOf_frame (g : CorrGroup) (t t' : Table) (x : ℝ)
    (h : ∀ k ∈ groupKeys g, t' k = t k) :
    stepOf g t' x = stepOf g t x := by
  cases g
  case core =>
    have h1 := h "core_0_tz" (by simp [groupKeys])
    have h2 := h "core_X_tz" (by simp [groupKeys])
    have h3 := h "core_0_qz" (by simp [groupKeys])
    have h4 := h "core_X_qz" (by simp [groupKeys])
    simp [stepOf, coreStep, hasKey, getE, h1, h2, h3, h4]
  case cc =>
    have h1 := h "ccQ" (by simp [groupKeys])
    have h2 := h "ccT" (by simp [groupKeys])
    simp [stepOf, ccStep, hasKey, getE, h1, h2]
  case ci =>
    have h1 := h "ci_DK" (by simp [groupKeys])
    have h2 := h "ci_NREL" (by simp [groupKeys])
    simp [stepOf, ciStep, hasKey, getE, h1, h2]
  case anharm =>
    have h1 := h "zpe_anharm" (by simp [groupKeys])
    have h2 := h "zpe_harm" (by simp [groupKeys])
    simp [stepOf, anharmStep, hasKey, getE, h1, h2]

theorem stepOf_shift (g : CorrGroup) (t : Table) (x c : ℝ) :
    stepOf g t (x + c) = (stepOf g t x).map (fun y => y + c) := by
  cases g
  case core =>
    by_cases hg : hasKey t "core_X_qz"
    · cases h1 : t "core_0_tz"
      · simp [stepOf, coreStep, hg, getE_none h1, error_bind, map_error]
      · cases h2 : t "core_X_tz"
        · simp [stepOf, coreStep, hg, getE_some h1, getE_none h2, ok_bind,
            error_bind, map_error]
        · cases h3 : t "core_0_qz"
          · simp [stepOf, coreStep, hg, getE_some h1, getE_some h2, getE_none h3,
              ok_bind, error_bind, map_error]
          · cases h4 : t "core_X_qz"
            · simp [stepOf, coreStep, hg, getE_some h1, getE_some h2, getE_some h3,
                getE_none h4, ok_bind, error_bind, map_error]
            · simp only [stepOf, coreStep, if_pos hg, getE_some h1, getE_some h2,
                getE_some h3, getE_some h4, ok_bind]
              split_ifs <;> simp [pure_eq_ok, map_ok] <;> ring
    · simp only [stepOf, coreStep, if_neg hg, pure_eq_ok, map_ok]
  case cc =>
    by_cases hg : hasKey t "ccT"
    · cases h1 : t "ccQ"
      · simp [stepOf, ccStep, hg, getE_none h1, error_bind, map_error]
      · cases h2 : t "ccT"
        · simp [stepOf, ccStep, hg, getE_some h1, getE_none h2, ok_bind,
            error_bind, map_error]
        · simp only [stepOf, ccStep, if_pos hg, getE_some h1, getE_some h2, ok_bind]
          split_ifs <;> simp [pure_eq_ok, map_ok] <;> ring
    · simp only [stepOf, ccStep, if_neg hg, pure_eq_ok, map_ok]
  case ci =>
    by_cases hg : hasKey t "ci_NREL"
    · cases h1 : t "ci_DK"
      · simp [stepOf, ciStep, hg, getE_none h1, error_bind, map_error]
      · cases h2 : t "ci_NREL"
        · simp [stepOf, ciStep, hg, getE_some h1, getE_none h2, ok_bind,
            error_bind, map_error]
        · simp only [stepOf, ciStep, if_pos hg, getE_some h1, getE_some h2, ok_bind]
          split_ifs <;> simp [pure_eq_ok, map_ok] <;> ring
    · simp only [stepOf, ciStep, if_neg hg, pure_eq_ok, map_ok]
  case anharm =>
    by_cases hg : hasKey t "zpe_harm"
    · cases h1 : t "zpe_anharm"
      · simp [stepOf, anharmStep, hg, getE_none h1, error_bind, map_error]
      · cases h2 : t "zpe_harm"
        · simp [stepOf, anharmStep, hg, getE_some h1, getE_none h2, ok_bind,
            error_bind, map_error]
        · simp only [stepOf, anharmStep, if_pos hg, getE_some h1, getE_some h2, ok_bind]
          split_ifs <;> simp [pure_eq_ok, map_ok] <;> ring
    · simp only [stepOf, anharmStep, if_neg hg, pure_eq_ok, map_ok]

/- Lifting the step lemmas to the whole correction chain. -/

theorem corrChain_steps (t : Table) (x : ℝ) :
    corrChain t x = stepOf CorrGroup.core t x >>= stepOf CorrGroup.cc t >>=
      stepOf CorrGroup.ci t >>= stepOf CorrGroup.anharm t := rfl

theorem shift_bind_step (g : CorrGroup) (t : Table) (m : Except String ℝ) (c : ℝ) :
    (m.map (fun y => y + c) >>= stepOf g t) = (m >>= stepOf g t).map (fun y => y + c) := by
  cases m
  · rfl
  · simp only [map_ok, ok_bind, stepOf_shift]

theorem bind_ok_add (m : Except String ℝ) (c : ℝ) :
    (m >>= fun y => Except.ok (y + c)) = m.map (fun y => y + c) := by
  cases m <;> rfl

theorem bind_ok_id (m : Except String ℝ) :
    (m >>= fun y => Except.ok y) = m := by
  cases m <;> rfl

theorem getE_congr {t t' : Table} {k : String} (h : t' k = t k) : getE t' k = getE t k := by
  simp [getE, h]

theorem stepOf_error_none (g : CorrGroup) {t : Table} {x : ℝ} {e : String}
    (h : stepOf g t x = Except.error e) : t e = none := by
  by_cases hg : (t (gateKey g)).isSome = true
  · by_cases hall : ∀ k ∈ groupKeys g, (t k).isSome = true
    · rw [stepOf_app g t x hall] at h
      exact Except.noConfusion h
    · push_neg at hall
      obtain ⟨k, hk, hks⟩ := hall
      obtain ⟨e2, he2, hnone⟩ :=
        stepOf_err g t x hg ⟨k, hk, Option.not_isSome_iff_eq_none.mp hks⟩
      rw [he2] at h
      injection h with h
      rw [← h]
      exact hnone
  · rw [stepOf_skip g t x (Option.not_isSome_iff_eq_none.mp hg)] at h
    exact Except.noConfusion h

theorem stepOf_ok_complete (g : CorrGroup) {t : Table} {x y : ℝ}
    (h : stepOf g t x = Except.ok y) (hg : (t (gateKey g)).isSome = true) :
    ∀ k ∈ groupKeys g, (t k).isSome = true := by
  by_contra hall
  push_neg at hall
  obtain ⟨k, hk, hks⟩ := hall
  obtain ⟨e, he, _⟩ := stepOf_err g t x hg ⟨k, hk, Option.not_isSome_iff_eq_none.mp hks⟩
  rw [he] at h
  exact Except.noConfusion h

theorem corrChain_error_none {t : Table} {x : ℝ} {e : String}
    (h : corrChain t x = Except.error e) : t e = none := by
  rw [corrChain_steps] at h
  cases h1 : stepOf CorrGroup.core t x
  case error e1 =>
    rw [h1, error_bind, error_bind, error_bind] at h
    injection h with h
    rw [← h]
    exact stepOf_error_none CorrGroup.core h1
  case ok y1 =>
    rw [h1, ok_bind] at h
    cases h2 : stepOf CorrGroup.cc t y1
    case error e2 =>
      rw [h2, error_bind, error_bind] at h
      injection h with h
      rw [← h]
      exact stepOf_error_none CorrGroup.cc h2
    case ok y2 =>
      rw [h2, ok_bind] at h
      cases h3 : stepOf CorrGroup.ci t y2
      case error e3 =>
        rw [h3, error_bind] at h
        injection h with h
        rw [← h]
        exact stepOf_error_none CorrGroup.ci h3
      case ok y3 =>
        rw [h3, ok_bind] at h
        exact stepOf_error_none CorrGroup.anharm h

theorem corrChain_ok_complete {t : Table} {x v : ℝ}
    (h : corrChain t x = Except.ok v) (g : CorrGroup)
    (hg : (t (gateKey g)).isSome = true) :
    ∀ k ∈ groupKeys g, (t k).isSome = true := by
  rw [corrChain_steps] at h
  cases h1 : stepOf CorrGroup.core t x
  case error e1 =>
    rw [h1, error_bind, error_bind, error_bind] at h
    exact Except.noConfusion h
  case ok y1 =>
    rw [h1, ok_bind] at h
    cases h2 : stepOf CorrGroup.cc t y1
    case error e2 =>
      rw [h2, error_bind, error_bind] at h
      exact Except.noConfusion h
    case ok y2 =>
      rw [h2, ok_bind] at h
      cases h3 : stepOf CorrGroup.ci t y2
      case error e3 =>
        rw [h3, error_bind] at h
        exact Except.noConfusion h
      case ok y3 =>
        rw [h3, ok_bind] at h
        cases g
        case core => exact stepOf_ok_complete CorrGroup.core h1 hg
        case cc => exact stepOf_ok_complete CorrGroup.cc h2 hg
        case ci => exact stepOf_ok_complete CorrGroup.ci h3 hg
        case anharm => exact stepOf_ok_complete CorrGroup.anharm h hg

theorem corrChain_ext {t t' : Table} (h : ∀ g : CorrGroup, stepOf g t' = stepOf g t) :
    corrChain t' = corrChain t := by
  funext x
  rw [corrChain_steps, corrChain_steps, h CorrGroup.core, h CorrGroup.cc,
    h CorrGroup.ci, h CorrGroup.anharm]

theorem anl0_required {t : Table} {a b c : ℝ}
    (ha : t "avqz" = some a) (hb : t "av5z" = some b) (hc : t "zpe" = some c) :
    anl0_hrxn t =
      corrChain t ((cbs_qz_5z_low * a + cbs_qz_5z_high * b + c) * hartree_to_kJpermole) := by
  simp [anl0_hrxn, getE_some ha, getE_some hb, getE_some hc, ok_bind, add_assoc]

theorem anl0_error_none {t : Table} {e : String}
    (h : anl0_hrxn t = Except.error e) : t e = none := by
  cases ha : t "avqz"
  case none =>
    rw [anl0_hrxn] at h
    simp only [getE_none ha, error_bind] at h
    injection h with h
    rw [← h]
    exact ha
  case some a =>
    cases hb : t "av5z"
    case none =>
      rw [anl0_hrxn] at h
      simp only [getE_some ha, getE_none hb, ok_bind, error_bind] at h
      injection h with h
      rw [← h]
      exact hb
    case some b =>
      cases hc : t "zpe"
      case none =>
        rw [anl0_hrxn] at h
        simp only [getE_some ha, getE_some hb, getE_none hc, ok_bind, error_bind] at h
        injection h with h
        rw [← h]
        exact hc
      case some c =>
        rw [anl0_required ha hb hc] at h
        exact corrChain_error_none h

theorem stepOf_frame_erase (g g' : CorrGroup) (t : Table)
    (hne : ∀ k ∈ groupKeys g', k ∉ groupKeys g) :
    stepOf g' (eraseKeys t (groupKeys g)) = stepOf g' t :=
  funext fun y => stepOf_frame g' t _ y (fun k hk => eraseKeys_not_mem (hne k hk))

/-- A fully populated correction group contributes its kJ/mol correction when
its magnitude is below 4.0 and nothing otherwise, relative to the same table
with the whole group removed. -/
theorem corrChain_erase_group (t : Table) (g : CorrGroup) (x : ℝ)
    (hgrp : ∀ k ∈ groupKeys g, (t k).isSome = true) :
    corrChain t x =
      if |corrKJ g t| < 4.0 then
        (corrChain (eraseKeys t (groupKeys g)) x).map (fun y => y + corrKJ g t)
      else corrChain (eraseKeys t (groupKeys g)) x := by
  cases g
  case core =>
    have hcc := stepOf_frame_erase CorrGroup.core CorrGroup.cc t (by decide)
    have hci := stepOf_frame_erase CorrGroup.core CorrGroup.ci t (by decide)
    have hanharm := stepOf_frame_erase CorrGroup.core CorrGroup.anharm t (by decide)
    have hnone : eraseKeys t (groupKeys CorrGroup.core) (gateKey CorrGroup.core) = none :=
      eraseKeys_mem (by simp [gateKey, groupKeys])
    rw [corrChain_steps, corrChain_steps, hcc, hci, hanharm,
      stepOf_skip CorrGroup.core _ x hnone, stepOf_app CorrGroup.core t x hgrp]
    split_ifs with hth
    · rw [ok_bind, ok_bind, stepOf_shift, shift_bind_step, shift_bind_step]
    · rw [ok_bind]
  case cc =>
    have hcore := stepOf_frame_erase CorrGroup.cc CorrGroup.core t (by decide)
    have hci := stepOf_frame_erase CorrGroup.cc CorrGroup.ci t (by decide)
    have hanharm := stepOf_frame_erase CorrGroup.cc CorrGroup.anharm t (by decide)
    have hskip : stepOf CorrGroup.cc (eraseKeys t (groupKeys CorrGroup.cc)) =
        fun y => Except.ok y :=
      funext fun y => stepOf_skip CorrGroup.cc _ y (eraseKeys_mem (by simp [gateKey, groupKeys]))
    rw [corrChain_steps, corrChain_steps, hcore, hci, hanharm, hskip, bind_ok_id]
    split_ifs with hth
    · have happ : stepOf CorrGroup.cc t =
          fun y => Except.ok (y + corrKJ CorrGroup.cc t) :=
        funext fun y => by rw [stepOf_app CorrGroup.cc t y hgrp, if_pos hth]
      rw [happ, bind_ok_add, shift_bind_step, shift_bind_step]
    · have happ : stepOf CorrGroup.cc t = fun y => Except.ok y :=
        funext fun y => by rw [stepOf_app CorrGroup.cc t y hgrp, if_neg hth]
      rw [happ, bind_ok_id]
  case ci =>
    have hcore := stepOf_frame_erase CorrGroup.ci CorrGroup.core t (by decide)
    have hcc := stepOf_frame_erase CorrGroup.ci CorrGroup.cc t (by decide)
    have hanharm := stepOf_frame_erase CorrGroup.ci CorrGroup.anharm t (by decide)
    have hskip : stepOf CorrGroup.ci (eraseKeys t (groupKeys CorrGroup.ci)) =
        fun y => Except.ok y :=
      funext fun y => stepOf_skip CorrGroup.ci _ y (eraseKeys_mem (by simp [gateKey, groupKeys]))
    rw [corrChain_steps, corrChain_steps, hcore, hcc, hanharm, hskip, bind_ok_id]
    split_ifs with hth
    · have happ : stepOf CorrGroup.ci t =
          fun y => Except.ok (y + corrKJ CorrGroup.ci t) :=
        funext fun y => by rw [stepOf_app CorrGroup.ci t y hgrp, if_pos hth]
      rw [happ, bind_ok_add, shift_bind_step]
    · have happ : stepOf CorrGroup.ci t = fun y => Except.ok y :=
        funext fun y => by rw [stepOf_app CorrGroup.ci t y hgrp, if_neg hth]
      rw [happ, bind_ok_id]
  case anharm =>
    have hcore := stepOf_frame_erase CorrGroup.anharm CorrGroup.core t (by decide)
    have hcc := stepOf_frame_erase CorrGroup.anharm CorrGroup.cc t (by decide)
    have hci := stepOf_frame_erase CorrGroup.anharm CorrGroup.ci t (by decide)
    have hskip : stepOf CorrGroup.anharm (eraseKeys t (groupKeys CorrGroup.anharm)) =
        fun y => Except.ok y :=
      funext fun y => stepOf_skip CorrGroup.anharm _ y (eraseKeys_mem (by simp [gateKey, groupKeys]))
    rw [corrChain_steps, corrChain_steps, hcore, hcc, hci, hskip, bind_ok_id]
    split_ifs with hth
    · have happ : stepOf CorrGroup.anharm t =
          fun y => Except.ok (y + corrKJ CorrGroup.anharm t) :=
        funext fun y => by rw [stepOf_app CorrGroup.anharm t y hgrp, if_pos hth]
      rw [happ, bind_ok_add]
    · have happ : stepOf CorrGroup.anharm t = fun y => Except.ok y :=
        funext fun y => by rw [stepOf_app CorrGroup.anharm t y hgrp, if_neg hth]
      rw [happ, bind_ok_id]

theorem anl0_erase_group (t : Table) (g : CorrGroup)
    (hreq : ∀ k ∈ requiredKeys, (t k).isSome = true)
    (hgrp : ∀ k ∈ groupKeys g, (t k).isSome = true) :
    anl0_hrxn t =
      if |corrKJ g t| < 4.0 then
        (anl0_hrxn (eraseKeys t (groupKeys g))).map (fun y => y + corrKJ g t)
      else anl0_hrxn (eraseKeys t (groupKeys g)) := by
  obtain ⟨a, ha⟩ := Option.isSome_iff_exists.mp (hreq "avqz" (by simp [requiredKeys]))
  obtain ⟨b, hb⟩ := Option.isSome_iff_exists.mp (hreq "av5z" (by simp [requiredKeys]))
  obtain ⟨c, hc⟩ := Option.isSome_iff_exists.mp (hreq "zpe" (by simp [requiredKeys]))
  have hdisj : ∀ k ∈ requiredKeys, k ∉ groupKeys g := by cases g <;> decide
  have ha' : eraseKeys t (groupKeys g) "avqz" = some a := by
    rw [eraseKeys_not_mem (hdisj "avqz" (by simp [requiredKeys]))]; exact ha
  have hb' : eraseKeys t (groupKeys g) "av5z" = some b := by
    rw [eraseKeys_not_mem (hdisj "av5z" (by simp [requiredKeys]))]; exact hb
  have hc' : eraseKeys t (groupKeys g) "zpe" = some c := by
    rw [eraseKeys_not_mem (hdisj "zpe" (by simp [requiredKeys]))]; exact hc
  rw [anl0_required ha hb hc, anl0_required ha' hb' hc',
    corrChain_erase_group t g _ hgrp]

/- A state-passing rendering of both functions: the dictionary is threaded
through every access, so that leaving it unchanged is a provable statement
rather than a modelling assumption. -/

/-- Dict access returning the (unchanged) dict alongside the value. -/
def getT (t : Table) (k : String) : Except String (ℝ × Table) :=
  match t k with
  | some v => Except.ok (v, t)
  | none => Except.error k

open Classical in
/-- State-threaded core-valence block. -/
noncomputable def coreStepS (t0 : Table) (Hrxn : ℝ) : Except String (ℝ × Table) :=
  if hasKey t0 "core_X_qz" then
    getT t0 "core_0_tz" >>= fun p1 =>
    getT p1.2 "core_X_tz" >>= fun p2 =>
    getT p2.2 "core_0_qz" >>= fun p3 =>
    getT p3.2 "core_X_qz" >>= fun p4 =>
    let core := cbs_tz_qz_low * (p1.1 - p2.1) + cbs_tz_qz_high * (p3.1 - p4.1)
    if |core * hartree_to_kJpermole| < 4.0 then
      Except.ok (Hrxn + core * hartree_to_kJpermole, p4.2)
    else
      Except.ok (Hrxn, p4.2)
  else
    Except.ok (Hrxn, t0)

open Classical in
/-- State-threaded coupled-cluster block. -/
noncomputable def ccStepS (t0 : Table) (Hrxn : ℝ) : Except String (ℝ × Table) :=
  if hasKey t0 "ccT" then
    getT t0 "ccQ" >>= fun p1 =>
    getT p1.2 "ccT" >>= fun p2 =>
    let ccTQ := p1.1 - p2.1
    if |ccTQ * hartree_to_kJpermole| < 4.0 then
      Except.ok (Hrxn + ccTQ * hartree_to_kJpermole, p2.2)
    else
      Except.ok (Hrxn, p2.2)
  else
    Except.ok (Hrxn, t0)

open Classical in
/-- State-threaded relativistic block. -/
noncomputable def ciStepS (t0 : Table) (Hrxn : ℝ) : Except String (ℝ × Table) :=
  if hasKey t0 "ci_NREL" then
    getT t0 "ci_DK" >>= fun p1 =>
    getT p1.2 "ci_NREL" >>= fun p2 =>
    let ci := p1.1 - p2.1
    if |ci * hartree_to_kJpermole| < 4.0 then
      Except.ok (Hrxn + ci * hartree_to_kJpermole, p2.2)
    else
      Except.ok (Hrxn, p2.2)
  else
    Except.ok (Hrxn, t0)

open Classical in
/-- State-threaded anharmonicity block. -/
noncomputable def anharmStepS (t0 : Table) (Hrxn : ℝ) : Except String (ℝ × Table) :=
  if hasKey t0 "zpe_harm" then
    getT t0 "zpe_anharm" >>= fun p1 =>
    getT p1.2 "zpe_harm" >>= fun p2 =>
    let anharm := p1.1 - p2.1
    if |anharm| < 4.0 then
      Except.ok (Hrxn + anharm, p2.2)
    else
      Except.ok (Hrxn, p2.2)
  else
    Except.ok (Hrxn, t0)

/-- State-threaded `anl0_hrxn`. -/
noncomputable def anl0_hrxnS (t0 : Table) : Except String (ℝ × Table) :=
  getT t0 "avqz" >>= fun pa =>
  getT pa.2 "av5z" >>= fun pb =>
  getT pb.2 "zpe" >>= fun pc =>
  let cbs := cbs_qz_5z_low * pa.1 + cbs_qz_5z_high * pb.1
  let Hrxn := (cbs + pc.1) * hartree_to_kJpermole
  coreStepS pc.2 Hrxn >>= fun p1 =>
  ccStepS p1.2 p1.1 >>= fun p2 =>
  ciStepS p2.2 p2.1 >>= fun p3 =>
  anharmStepS p3.2 p3.1

/-- State-threaded list comprehension. -/
def lookupAllS (t : Table) : List String → Except String (List ℝ × Table)
  | [] => Except.ok ([], t)
  | k :: ks =>
    getT t k >>= fun p =>
    lookupAllS p.2 ks >>= fun q =>
    Except.ok (p.1 :: q.1, q.2)

/-- State-threaded `sum_Hrxn`. -/
noncomputable def sum_HrxnS (t : Table) (args : List String) : Except String (ℝ × Table) :=
  (lookupAllS t args).map (fun q => (q.1.sum * hartree_to_kJpermole, q.2))

theorem coreStepS_eq (t : Table) (x : ℝ) :
    coreStepS t x = (coreStep t x).map (fun y => (y, t)) := by
  by_cases hg : hasKey t "core_X_qz"
  · cases h1 : t "core_0_tz"
    · simp [coreStepS, coreStep, hg, getT, getE, h1, error_bind, map_error]
    · cases h2 : t "core_X_tz"
      · simp [coreStepS, coreStep, hg, getT, getE, h1, h2, ok_bind, error_bind, map_error]
      · cases h3 : t "core_0_qz"
        · simp [coreStepS, coreStep, hg, getT, getE, h1, h2, h3, ok_bind, error_bind,
            map_error]
        · cases h4 : t "core_X_qz"
          · simp [coreStepS, coreStep, hg, getT, getE, h1, h2, h3, h4, ok_bind,
              error_bind, map_error]
          · simp only [coreStepS, coreStep, if_pos hg, getT, getE, h1, h2, h3, h4, ok_bind]
            split_ifs <;> simp [pure_eq_ok, map_ok]
  · simp [coreStepS, coreStep, hg, pure_eq_ok, map_ok]

theorem ccStepS_eq (t : Table) (x : ℝ) :
    ccStepS t x = (ccStep t x).map (fun y => (y, t)) := by
  by_cases hg : hasKey t "ccT"
  · cases h1 : t "ccQ"
    · simp [ccStepS, ccStep, hg, getT, getE, h1, error_bind, map_error]
    · cases h2 : t "ccT"
      · simp [ccStepS, ccStep, hg, getT, getE, h1, h2, ok_bind, error_bind, map_error]
      · simp only [ccStepS, ccStep, if_pos hg, getT, getE, h1, h2, ok_bind]
        split_ifs <;> simp [pure_eq_ok, map_ok]
  · simp [ccStepS, ccStep, hg, pure_eq_ok, map_ok]

theorem ciStepS_eq (t : Table) (x : ℝ) :
    ciStepS t x = (ciStep t x).map (fun y => (y, t)) := by
  by_cases hg : hasKey t "ci_NREL"
  · cases h1 : t "ci_DK"
    · simp [ciStepS, ciStep, hg, getT, getE, h1, error_bind, map_error]
    · cases h2 : t "ci_NREL"
      · simp [ciStepS, ciStep, hg, getT, getE, h1, h2, ok_bind, error_bind, map_error]
      · simp only [ciStepS, ciStep, if_pos hg, getT, getE, h1, h2, ok_bind]
        split_ifs <;> simp [pure_eq_ok, map_ok]
  · simp [ciStepS, ciStep, hg, pure_eq_ok, map_ok]

theorem anharmStepS_eq (t : Table) (x : ℝ) :
    anharmStepS t x = (anharmStep t x).map (fun y => (y, t)) := by
  by_cases hg : hasKey t "zpe_harm"
  · cases h1 : t "zpe_anharm"
    · simp [anharmStepS, anharmStep, hg, getT, getE, h1, error_bind, map_error]
    · cases h2 : t "zpe_harm"
      · simp [anharmStepS, anharmStep, hg, getT, getE, h1, h2, ok_bind, error_bind,
          map_error]
      · simp only [anharmStepS, anharmStep, if_pos hg, getT, getE, h1, h2, ok_bind]
        split_ifs <;> simp [pure_eq_ok, map_ok]
  · simp [anharmStepS, anharmStep, hg, pure_eq_ok, map_ok]

theorem anl0_hrxnS_eq (t : Table) :
    anl0_hrxnS t = (anl0_hrxn t).map (fun y => (y, t)) := by
  cases ha : t "avqz"
  · simp [anl0_hrxnS, anl0_hrxn, getT, getE, ha, error_bind, map_error]
  · cases hb : t "av5z"
    · simp [anl0_hrxnS, anl0_hrxn, getT, getE, ha, hb, ok_bind, error_bind, map_error]
    · cases hc : t "zpe"
      · simp [anl0_hrxnS, anl0_hrxn, getT, getE, ha, hb, hc, ok_bind, error_bind,
          map_error]
      · simp only [anl0_hrxnS, anl0_hrxn, corrChain, getT, getE, ha, hb, hc, ok_bind]
        rw [coreStepS_eq]
        cases hcore : coreStep t ((cbs_qz_5z_low * _ + cbs_qz_5z_high * _ + _) *
            hartree_to_kJpermole)
        · simp [hcore, map_error, error_bind]
        · simp only [hcore, map_ok, ok_bind]
          rw [ccStepS_eq]
          cases hcc : ccStep t _
          · simp [hcc, map_error, error_bind]
          · simp only [hcc, map_ok, ok_bind]
            rw [ciStepS_eq]
            cases hci : ciStep t _
            · simp [hci, map_error, error_bind]
            · simp only [hci, map_ok, ok_bind]
              rw [anharmStepS_eq]

theorem lookupAllS_eq (t : Table) (ks : List String) :
    lookupAllS t ks = (lookupAll t ks).map (fun vs => (vs, t)) := by
  induction ks with
  | nil => rfl
  | cons k ks ih =>
    cases hk : t k
    · simp [lookupAllS, lookupAll, getT, getE, hk, error_bind, map_error]
    · simp only [lookupAllS, lookupAll, getT, getE, hk, ok_bind]
      rw [ih]
      cases hl : lookupAll t ks <;>
        simp [hl, map_error, map_ok, error_bind, ok_bind, pure_eq_ok]

theorem sum_HrxnS_eq (t : Table) (ks : List String) :
    sum_HrxnS t ks = (sum_Hrxn t ks).map (fun y => (y, t)) := by
  rw [sum_HrxnS, sum_Hrxn, lookupAllS_eq]
  cases hl : lookupAll t ks <;> simp [map_error, map_ok]

theorem lookupAll_ok {t : Table} {ks : List String}
    (h : ∀ k ∈ ks, (t k).isSome = true) :
    lookupAll t ks = Except.ok (ks.map (fun k => (t k).getD 0)) := by
  induction ks with
  | nil => rfl
  | cons k ks ih =>
    obtain ⟨v, hv⟩ := Option.isSome_iff_exists.mp (h k (by simp))
    simp only [lookupAll, getE_some hv, ok_bind,
      ih (fun k2 hk2 => h k2 (by simp [hk2])), List.map_cons, hv, pure_eq_ok,
      Option.getD_some]

/- Concrete energy tables used to exercise the theorems. -/

/-- A table whose key set is exactly the three required keys. -/
def tblBase : Table := fun k =>
  if k = "avqz" then some 0 else if k = "av5z" then some 0 else
  if k = "zpe" then some 0 else none

/-- The required keys plus the full coupled-cluster group. -/
def tblCC : Table := fun k =>
  if k = "avqz" then some 0 else if k = "av5z" then some 0 else
  if k = "zpe" then some 0 else
  if k = "ccQ" then some 0 else if k = "ccT" then some 0 else none

/-- The required keys plus the full core-valence group. -/
def tblCore : Table := fun k =>
  if k = "avqz" then some 0 else if k = "av5z" then some 0 else
  if k = "zpe" then some 0 else
  if k = "core_0_tz" then some 0 else if k = "core_X_tz" then some 0 else
  if k = "core_0_qz" then some 0 else if k = "core_X_qz" then some 0 else none

/-- The required keys plus the full anharmonicity group. -/
def tblAnharm : Table := fun k =>
  if k = "avqz" then some 0 else if k = "av5z" then some 0 else
  if k = "zpe" then some 0 else
  if k = "zpe_anharm" then some 0 else if k = "zpe_harm" then some 0 else none

/-- The spec's example `{'avqz': -1.0, 'zpe': 0.01}` (missing `av5z`). -/
def exampleTable : Table := fun k =>
  if k = "avqz" then some (-1.0) else if k = "zpe" then some 0.01 else none

/- The claims. -/

/-- C1: the spec demands that omitting any single key of a correction group
behave like omitting the whole group, but the code gates each group on its
last key only: removing `core_0_tz` from a fully populated core group leaves
`core_X_qz` in place, so `anl0_hrxn` raises `KeyError('core_0_tz')` instead
of skipping the group, while removing the whole group returns a value. -/
theorem anl0_partial_group_key_error :
    anl0_hrxn (eraseKeys tblCore ["core_0_tz"]) = Except.error "core_0_tz" ∧
    anl0_hrxn (eraseKeys tblCore (groupKeys CorrGroup.core)) = Except.ok 0 ∧
    anl0_hrxn (eraseKeys tblCore ["core_0_tz"]) ≠
      anl0_hrxn (eraseKeys tblCore (groupKeys CorrGroup.core)) := by
  have e1 : anl0_hrxn (eraseKeys tblCore ["core_0_tz"]) = Except.error "core_0_tz" := rfl
  have e2 : anl0_hrxn (eraseKeys tblCore (groupKeys CorrGroup.core)) = Except.ok 0 := by
    have ha : eraseKeys tblCore (groupKeys CorrGroup.core) "avqz" = some 0 := rfl
    have hb : eraseKeys tblCore (groupKeys CorrGroup.core) "av5z" = some 0 := rfl
    have hc : eraseKeys tblCore (groupKeys CorrGroup.core) "zpe" = some 0 := rfl
    rw [anl0_required ha hb hc, corrChain_steps,
      stepOf_skip CorrGroup.core _ _ (by rfl), ok_bind,
      stepOf_skip CorrGroup.cc _ _ (by rfl), ok_bind,
      stepOf_skip CorrGroup.ci _ _ (by rfl), ok_bind,
      stepOf_skip CorrGroup.anharm _ _ (by rfl)]
    simp
  exact ⟨e1, e2, by rw [e1, e2]; exact fun h => Except.noConfusion h⟩

/-- C2: on a table whose key set is exactly the three required keys,
`anl0_hrxn` returns `((w_low*avqz + w_high*av5z) + zpe) * K` exactly, with
the spec's qz/5z extrapolation weights. -/
theorem anl0_base_formula (t : Table) (a b c : ℝ)
    (ha : t "avqz" = some a) (hb : t "av5z" = some b) (hc : t "zpe" = some c)
    (honly : ∀ k, k ≠ "avqz" → k ≠ "av5z" → k ≠ "zpe" → t k = none) :
    anl0_hrxn t = Except.ok (((w_low * a + w_high * b) + c) * K) := by
  have h1 : t "core_X_qz" = none := honly "core_X_qz" (by decide) (by decide) (by decide)
  have h2 : t "ccT" = none := honly "ccT" (by decide) (by decide) (by decide)
  have h3 : t "ci_NREL" = none := honly "ci_NREL" (by decide) (by decide) (by decide)
  have h4 : t "zpe_harm" = none := honly "zpe_harm" (by decide) (by decide) (by decide)
  rw [anl0_required ha hb hc, corrChain_steps,
    stepOf_skip CorrGroup.core t _ h1, ok_bind,
    stepOf_skip CorrGroup.cc t _ h2, ok_bind,
    stepOf_skip CorrGroup.ci t _ h3, ok_bind,
    stepOf_skip CorrGroup.anharm t _ h4]
  congr 1
  simp only [cbs_qz_5z_low, cbs_qz_5z_high, cbs_qz_5z, w_low, w_high, K,
    hartree_to_kJpermole]
  ring

theorem anl0_base_formula_witness :
    anl0_hrxn tblBase = Except.ok (((w_low * 0 + w_high * 0) + 0) * K) :=
  anl0_base_formula tblBase 0 0 0 rfl rfl rfl
    (fun k h1 h2 h3 => by simp [tblBase, h1, h2, h3])

/-- C3: with the required keys and every key of a correction group present,
a correction of kJ/mol magnitude at least 4.0 leaves the result exactly as
on the table without the group, and a magnitude below 4.0 adds exactly the
correction (in kJ/mol) to that result. -/
theorem anl0_correction_threshold (t : Table) (g : CorrGroup)
    (hreq : ∀ k ∈ requiredKeys, (t k).isSome = true)
    (hgrp : ∀ k ∈ groupKeys g, (t k).isSome = true) :
    (4.0 ≤ |corrKJ g t| → anl0_hrxn t = anl0_hrxn (eraseKeys t (groupKeys g))) ∧
    (|corrKJ g t| < 4.0 →
      anl0_hrxn t = (anl0_hrxn (eraseKeys t (groupKeys g))).map
        (fun y => y + corrKJ g t)) := by
  constructor
  · intro hge
    rw [anl0_erase_group t g hreq hgrp, if_neg (not_lt.mpr hge)]
  · intro hlt
    rw [anl0_erase_group t g hreq hgrp, if_pos hlt]

theorem anl0_correction_threshold_witness :
    (4.0 ≤ |corrKJ CorrGroup.cc tblCC| →
      anl0_hrxn tblCC = anl0_hrxn (eraseKeys tblCC (groupKeys CorrGroup.cc))) ∧
    (|corrKJ CorrGroup.cc tblCC| < 4.0 →
      anl0_hrxn tblCC = (anl0_hrxn (eraseKeys tblCC (groupKeys CorrGroup.cc))).map
        (fun y => y + corrKJ CorrGroup.cc tblCC)) :=
  anl0_correction_threshold tblCC CorrGroup.cc (by decide) (by decide)

/-- C4: a table missing one of `avqz`, `av5z`, `zpe` makes `anl0_hrxn` fail
with a lookup error naming a missing required key; in particular the spec's
example `{'avqz': -1.0, 'zpe': 0.01}` fails on the missing `av5z`. -/
theorem anl0_missing_required (t : Table)
    (h : ∃ k ∈ requiredKeys, t k = none) :
    (∃ e ∈ requiredKeys, anl0_hrxn t = Except.error e ∧ t e = none) ∧
    anl0_hrxn exampleTable = Except.error "av5z" := by
  refine ⟨?_, rfl⟩
  cases ha : t "avqz"
  case none =>
    refine ⟨"avqz", by simp [requiredKeys], ?_, ha⟩
    rw [anl0_hrxn]
    simp only [getE_none ha, error_bind]
  case some a =>
    cases hb : t "av5z"
    case none =>
      refine ⟨"av5z", by simp [requiredKeys], ?_, hb⟩
      rw [anl0_hrxn]
      simp only [getE_some ha, getE_none hb, ok_bind, error_bind]
    case some b =>
      cases hc : t "zpe"
      case none =>
        refine ⟨"zpe", by simp [requiredKeys], ?_, hc⟩
        rw [anl0_hrxn]
        simp only [getE_some ha, getE_some hb, getE_none hc, ok_bind, error_bind]
      case some c =>
        exfalso
        obtain ⟨k, hk, hknone⟩ := h
        simp only [requiredKeys, List.mem_cons, List.not_mem_nil, or_false] at hk
        rcases hk with rfl | rfl | rfl
        · rw [ha] at hknone; exact Option.noConfusion hknone
        · rw [hb] at hknone; exact Option.noConfusion hknone
        · rw [hc] at hknone; exact Option.noConfusion hknone

theorem anl0_missing_required_witness :
    (∃ e ∈ requiredKeys, anl0_hrxn exampleTable = Except.error e ∧
      exampleTable e = none) ∧
    anl0_hrxn exampleTable = Except.error "av5z" :=
  anl0_missing_required exampleTable ⟨"av5z", by simp [requiredKeys], rfl⟩

/-- C5: with every named key present, `sum_Hrxn` returns
`K * sum(table[k] for k in keys)`; on the empty key list it returns `0.0`. -/
theorem sum_Hrxn_formula (t : Table) (ks : List String)
    (h : ∀ k ∈ ks, (t k).isSome = true) :
    sum_Hrxn t ks = Except.ok (K * (ks.map (fun k => (t k).getD 0)).sum) ∧
    sum_Hrxn t [] = Except.ok 0 := by
  constructor
  · rw [sum_Hrxn, lookupAll_ok h, map_ok]
    simp [K, hartree_to_kJpermole, mul_comm]
  · simp [sum_Hrxn, lookupAll, map_ok]

theorem sum_Hrxn_formula_witness :
    sum_Hrxn tblBase ["avqz"] =
      Except.ok (K * ((["avqz"].map (fun k => (tblBase k).getD 0)).sum)) ∧
    sum_Hrxn tblBase [] = Except.ok 0 :=
  sum_Hrxn_formula tblBase ["avqz"] (by decide)

/-- C6: if any named key is absent, `sum_Hrxn` fails with a lookup error
naming an absent key instead of returning a partial sum. -/
theorem sum_Hrxn_missing (t : Table) (ks : List String)
    (h : ∃ k ∈ ks, t k = none) :
    ∃ e, sum_Hrxn t ks = Except.error e ∧ t e = none := by
  induction ks with
  | nil => simp at h
  | cons k ks ih =>
    cases hk : t k
    case none =>
      exact ⟨k, by simp [sum_Hrxn, lookupAll, getE_none hk, error_bind, map_error], hk⟩
    case some v =>
      obtain ⟨k2, hk2, hnone⟩ := h
      have htail : ∃ k2 ∈ ks, t k2 = none := by
        rcases List.mem_cons.mp hk2 with rfl | hmem
        · rw [hk] at hnone; exact Option.noConfusion hnone
        · exact ⟨k2, hmem, hnone⟩
      obtain ⟨e, he, henone⟩ := ih htail
      refine ⟨e, ?_, henone⟩
      rw [sum_Hrxn] at he ⊢
      cases hl : lookupAll t ks
      case error e2 =>
        rw [hl, map_error] at he
        injection he with he2
        subst he2
        simp [lookupAll, getE_some hk, ok_bind, hl, error_bind, map_error]
      case ok vs =>
        rw [hl, map_ok] at he
        exact Except.noConfusion he

theorem sum_Hrxn_missing_witness :
    ∃ e, sum_Hrxn tblBase ["avqz", "missing"] = Except.error e ∧
      tblBase e = none :=
  sum_Hrxn_missing tblBase ["avqz", "missing"] ⟨"missing", by simp, rfl⟩

/-- C7: the core-valence correction uses the triple/quadruple-zeta weights
`w_low_tz = -(3^3.7/(4^3.7-3^3.7))`, `w_high_tz = 1 - w_low_tz`; its kJ/mol
value is the Hartree formula times `K`, and that is exactly what gets added
when the correction is applied. -/
theorem anl0_core_valence_formula (t : Table) (c0t cXt c0q cXq : ℝ)
    (hreq : ∀ k ∈ requiredKeys, (t k).isSome = true)
    (h1 : t "core_0_tz" = some c0t) (h2 : t "core_X_tz" = some cXt)
    (h3 : t "core_0_qz" = some c0q) (h4 : t "core_X_qz" = some cXq) :
    corrKJ CorrGroup.core t = (w_low_tz * (c0t - cXt) + w_high_tz * (c0q - cXq)) * K ∧
    (|(w_low_tz * (c0t - cXt) + w_high_tz * (c0q - cXq)) * K| < 4.0 →
      anl0_hrxn t = (anl0_hrxn (eraseKeys t (groupKeys CorrGroup.core))).map
        (fun y => y + (w_low_tz * (c0t - cXt) + w_high_tz * (c0q - cXq)) * K)) := by
  have hcorr : corrKJ CorrGroup.core t =
      (w_low_tz * (c0t - cXt) + w_high_tz * (c0q - cXq)) * K := by
    simp only [corrKJ, h1, h2, h3, h4, Option.getD_some]
    simp only [cbs_tz_qz_low, cbs_tz_qz_high, cbs_tz_qz, w_low_tz, w_high_tz, K,
      hartree_to_kJpermole]
    ring
  refine ⟨hcorr, fun hlt => ?_⟩
  have hgrp : ∀ k ∈ groupKeys CorrGroup.core, (t k).isSome = true := by
    intro k hk
    simp only [groupKeys, List.mem_cons, List.not_mem_nil, or_false] at hk
    rcases hk with rfl | rfl | rfl | rfl <;> simp [h1, h2, h3, h4]
  rw [anl0_erase_group t CorrGroup.core hreq hgrp, hcorr, if_pos hlt]

theorem anl0_core_valence_formula_witness :
    corrKJ CorrGroup.core tblCore =
      (w_low_tz * (0 - 0) + w_high_tz * (0 - 0)) * K ∧
    (|(w_low_tz * (0 - 0) + w_high_tz * (0 - 0)) * K| < 4.0 →
      anl0_hrxn tblCore = (anl0_hrxn (eraseKeys tblCore (groupKeys CorrGroup.core))).map
        (fun y => y + (w_low_tz * (0 - 0) + w_high_tz * (0 - 0)) * K)) :=
  anl0_core_valence_formula tblCore 0 0 0 0 (by decide) rfl rfl rfl rfl

/-- C8: the anharmonicity correction added to the result is exactly
`zpe_anharm - zpe_harm`, with no multiplication by `K`, and its 4.0
threshold is compared against that unscaled difference. -/
theorem anl0_anharm_unscaled (t : Table) (za zh : ℝ)
    (hreq : ∀ k ∈ requiredKeys, (t k).isSome = true)
    (h1 : t "zpe_anharm" = some za) (h2 : t "zpe_harm" = some zh) :
    corrKJ CorrGroup.anharm t = za - zh ∧
    (|za - zh| < 4.0 →
      anl0_hrxn t = (anl0_hrxn (eraseKeys t (groupKeys CorrGroup.anharm))).map
        (fun y => y + (za - zh))) ∧
    (4.0 ≤ |za - zh| →
      anl0_hrxn t = anl0_hrxn (eraseKeys t (groupKeys CorrGroup.anharm))) := by
  have hcorr : corrKJ CorrGroup.anharm t = za - zh := by
    simp [corrKJ, h1, h2]
  have hgrp : ∀ k ∈ groupKeys CorrGroup.anharm, (t k).isSome = true := by
    intro k hk
    simp only [groupKeys, List.mem_cons, List.not_mem_nil, or_false] at hk
    rcases hk with rfl | rfl <;> simp [h1, h2]
  refine ⟨hcorr, fun hlt => ?_, fun hge => ?_⟩
  · rw [anl0_erase_group t CorrGroup.anharm hreq hgrp, hcorr, if_pos hlt]
  · rw [anl0_erase_group t CorrGroup.anharm hreq hgrp, hcorr,
      if_neg (not_lt.mpr hge)]

theorem anl0_anharm_unscaled_witness :
    corrKJ CorrGroup.anharm tblAnharm = 0 - 0 ∧
    (|(0 : ℝ) - 0| < 4.0 →
      anl0_hrxn tblAnharm =
        (anl0_hrxn (eraseKeys tblAnharm (groupKeys CorrGroup.anharm))).map
          (fun y => y + ((0 : ℝ) - 0))) ∧
    (4.0 ≤ |(0 : ℝ) - 0| →
      anl0_hrxn tblAnharm = anl0_hrxn (eraseKeys tblAnharm (groupKeys CorrGroup.anharm))) :=
  anl0_anharm_unscaled tblAnharm 0 0 (by decide) rfl rfl

/-- C9: each correction group is gated solely by the presence of its last
key: if that key is present while another key of the group is absent, the
call fails with a lookup error at a missing key, and if it is absent the
whole group is skipped even when every other key is present. -/
theorem anl0_gate_key_only (t : Table) (g : CorrGroup) :
    ((t (gateKey g)).isSome = true → (∃ k ∈ groupKeys g, t k = none) →
      ∃ e, anl0_hrxn t = Except.error e ∧ t e = none) ∧
    (t (gateKey g) = none →
      anl0_hrxn t = anl0_hrxn (eraseKeys t (groupKeys g))) := by
  constructor
  · intro hg hmiss
    cases hA : anl0_hrxn t
    case error e => exact ⟨e, rfl, anl0_error_none hA⟩
    case ok v =>
      exfalso
      cases ha : t "avqz"
      case none =>
        rw [anl0_hrxn] at hA
        simp only [getE_none ha, error_bind] at hA
        exact Except.noConfusion hA
      case some a =>
        cases hb : t "av5z"
        case none =>
          rw [anl0_hrxn] at hA
          simp only [getE_some ha, getE_none hb, ok_bind, error_bind] at hA
          exact Except.noConfusion hA
        case some b =>
          cases hc : t "zpe"
          case none =>
            rw [anl0_hrxn] at hA
            simp only [getE_some ha, getE_some hb, getE_none hc, ok_bind,
              error_bind] at hA
            exact Except.noConfusion hA
          case some c =>
            rw [anl0_required ha hb hc] at hA
            obtain ⟨k, hk, hknone⟩ := hmiss
            have hcomp := corrChain_ok_complete hA g hg k hk
            rw [hknone] at hcomp
            simp at hcomp
  · intro hgnone
    have hgnone' : eraseKeys t (groupKeys g) (gateKey g) = none :=
      eraseKeys_mem (by cases g <;> decide)
    have hsame : ∀ g' : CorrGroup, stepOf g' (eraseKeys t (groupKeys g)) = stepOf g' t := by
      intro g'
      by_cases hgg : g' = g
      · subst hgg
        funext y
        rw [stepOf_skip g' _ y hgnone', stepOf_skip g' t y hgnone]
      · exact stepOf_frame_erase g g' t
          (by cases g <;> cases g' <;> first | (exact absurd rfl hgg) | decide)
    have hchain : corrChain (eraseKeys t (groupKeys g)) = corrChain t :=
      corrChain_ext hsame
    have hdisj : ∀ k ∈ requiredKeys, k ∉ groupKeys g := by cases g <;> decide
    simp only [anl0_hrxn]
    rw [getE_congr (eraseKeys_not_mem (hdisj "avqz" (by simp [requiredKeys]))),
      getE_congr (eraseKeys_not_mem (hdisj "av5z" (by simp [requiredKeys]))),
      getE_congr (eraseKeys_not_mem (hdisj "zpe" (by simp [requiredKeys]))), hchain]

theorem anl0_gate_key_only_witness :
    (∃ e, anl0_hrxn (eraseKeys tblCore ["core_0_tz"]) = Except.error e ∧
      eraseKeys tblCore ["core_0_tz"] e = none) ∧
    anl0_hrxn tblBase = anl0_hrxn (eraseKeys tblBase (groupKeys CorrGroup.cc)) :=
  ⟨(anl0_gate_key_only (eraseKeys tblCore ["core_0_tz"]) CorrGroup.core).1 rfl
      ⟨"core_0_tz", by simp [groupKeys], rfl⟩,
    (anl0_gate_key_only tblBase CorrGroup.cc).2 rfl⟩

/-- C10: both functions are pure: threading the dictionary through every
access, the final dictionary equals the input one, and the returned value
is a function of the input alone. -/
theorem hrxn_methods_pure (t : Table) :
    anl0_hrxnS t = (anl0_hrxn t).map (fun y => (y, t)) ∧
    ∀ ks : List String, sum_HrxnS t ks = (sum_Hrxn t ks).map (fun y => (y, t)) :=
  ⟨anl0_hrxnS_eq t, fun ks => sum_HrxnS_eq t ks⟩

end AutoCBH
